import Mathlib

/-
Verification development for the sketched federated SGD aggregation engine
(src/Sketched_SGD/fed_sketched_classes.py).

Modelling conventions.
* Tensors of shape (grad_size,) are lists of rationals; torch elementwise
  addition, scalar multiplication and stacking-then-summing become zipWith,
  map and an elementwise fold.
* Boolean-mask indexing (grad[mask]) is a recursive masked selection, and
  masked assignment (t[mask] = s) is a recursive scatter.
* Integer fancy-index assignment (t[idxs] = 0) is an assignment loop over the
  index list.
* The per-worker aggregation state (u, v, sketch_mask, k, p2) is a structure;
  methods that mutate a buffer become functions returning the new buffer.
-/

/-- torch elementwise addition of two (equal-length) vectors. -/
def vecAdd (xs ys : List ℚ) : List ℚ := List.zipWith (fun a b => a + b) xs ys

/-- torch scalar multiplication of a vector. -/
def vecScale (c : ℚ) (xs : List ℚ) : List ℚ := xs.map (fun x => c * x)

/-- torch.sum(torch.stack vs, dim=0): elementwise sum of a stack of vectors. -/
def vecSum : List (List ℚ) → List ℚ
  | [] => []
  | [v] => v
  | v :: vs => vecAdd v (vecSum vs)

/-- The exact sum of coordinate i across a list of contributed vectors. -/
def coordSum (grads : List (List ℚ)) (i : ℕ) : ℚ :=
  (grads.map (fun g => g.getD i 0)).sum

/-- Boolean-mask selection grad[mask]: keeps entries at True positions. -/
def maskedSelect : List Bool → List ℚ → List ℚ
  | true :: m, x :: xs => x :: maskedSelect m xs
  | false :: m, _ :: xs => maskedSelect m xs
  | _, _ => []

/-- Masked assembly of a vector: out[mask] = sk and out[~mask] = dn,
mirroring the two masked assignments that build weight_update. -/
def scatterMask : List Bool → List ℚ → List ℚ → List ℚ
  | [], _, _ => []
  | true :: m, sk, dn => sk.headD 0 :: scatterMask m sk.tail dn
  | false :: m, sk, dn => dn.headD 0 :: scatterMask m sk dn.tail

/-- Number of True entries of a mask (sketch_mask.sum()). -/
def countTrue (mask : List Bool) : ℕ := mask.countP id

/-- Number of True entries strictly before position i. -/
def trueRank (mask : List Bool) (i : ℕ) : ℕ := countTrue (mask.take i)

/-- Integer fancy-index assignment t[idxs] = c as an assignment loop. -/
def setAtIndices : List ℚ → List ℕ → ℚ → List ℚ
  | xs, [], _ => xs
  | xs, i :: is, c => setAtIndices (xs.set i c) is c

/-- update.nonzero(): the positions holding a nonzero value. -/
def nonzeroIndices (xs : List ℚ) : List ℕ :=
  (List.range xs.length).filter (fun i => decide (xs.getD i 0 ≠ 0))

/-- The positions where the mask is False (the ~sketch_mask positions). -/
def denseIndices (mask : List Bool) : List ℕ :=
  (List.range mask.length).filter (fun i => !(mask.getD i true))

/-- Per-worker aggregation state of FedSketchedWorker: momentum buffer u,
velocity buffer v, the sketch mask, sparsity budget k and over-recovery
factor p2.  grad_size is the mask length. -/
structure FedWorker where
  u : List ℚ
  v : List ℚ
  sketch_mask : List Bool
  k : ℕ
  p2 : ℕ

/-- FedSketchedWorker.compute_grad: optionally augments the raw gradient with
(weight_decay/num_workers) times the parameter vector, then folds it into the
momentum buffer u and velocity buffer v by the classic or the nesterov rule,
returning (new u, new v, returned vector); the method returns self.v. -/
def compute_grad (nesterov : Bool) (momentum weight_decay : ℚ) (num_workers : ℕ)
    (gradRaw param u v : List ℚ) : List ℚ × List ℚ × List ℚ :=
  let gradVec := if weight_decay ≠ 0 then
      vecAdd gradRaw (vecScale (weight_decay / (num_workers : ℚ)) param)
    else gradRaw
  if nesterov then
    let u1 := vecScale momentum (vecAdd u gradVec)
    let v1 := vecAdd (vecAdd v u1) gradVec
    (u1, v1, v1)
  else
    let u1 := vecAdd (vecScale momentum u) gradVec
    let v1 := vecAdd v u1
    (u1, v1, v1)

/-- Modelled from the spec: the Count-Sketch accumulator (class CSVec from
module minimal) is not under src.  Spec sections 3 and 4.1 state that the
sketch is linear (sketch(a) + sketch(b) = sketch(a+b)) and zeroed before each
round, so after the insertion loop of all_reduce_sketched its table is a fixed
linear image of the elementwise sum of the inserted masked sub-ranges; we
represent the accumulated state by that sum.  sketchedSum is this state after
inserting grad[sketch_mask] for every contributed vector. -/
def sketchedSum (mask : List Bool) (grads : List (List ℚ)) : List ℚ :=
  vecSum (grads.map (fun g => maskedSelect mask g))

/-- The exact elementwise sum of the dense (~sketch_mask) sub-ranges of all
contributed vectors, as assigned into weight_update[~sketch_mask]. -/
def denseSum (mask : List Bool) (grads : List (List ℚ)) : List ℚ :=
  vecSum (grads.map (fun g => maskedSelect (mask.map not) g))

/-- The de-biasing step of all_reduce_sketched: candidate_hh_coords are the
nonzero positions of the recovered candidate vector, and at those positions
the candidate value is overwritten with torch.sum(torch.stack(hhs), dim=0)
where hhs = grad[candidate_hh_coords] indexes the FULL contributed vectors
with the candidate positions. -/
def debiasCandidates (cands : List ℚ) (grads : List (List ℚ)) : List ℚ :=
  (List.range cands.length).map
    (fun j => if cands.getD j 0 ≠ 0 then coordSum grads j else cands.getD j 0)

/-- Comparison of two positions of vec by squared value, the sort key of
torch.sort(vec**2). -/
def sqLe (vec : List ℚ) (i j : ℕ) : Bool :=
  decide (vec.getD i 0 * vec.getD i 0 ≤ vec.getD j 0 * vec.getD j 0)

/-- FedSketchedWorker._topk index set: torch.sort(vec**2)[1][-k:], a stable
ascending sort of the positions by squared value, keeping the last k. -/
def topkIndices (vec : List ℚ) (k : ℕ) : List ℕ :=
  ((List.range vec.length).mergeSort (sqLe vec)).drop (vec.length - k)

/-- FedSketchedWorker._topk: zeros_like(vec) with ret[topkIndices] =
vec[topkIndices]. -/
def topkSelect (vec : List ℚ) (k : ℕ) : List ℚ :=
  (List.range vec.length).map (fun i => if i ∈ topkIndices vec k then vec.getD i 0 else 0)

/-- FedSketchedWorker.all_reduce_sketched, up to the weight update it passes
to _apply_update.  unSk is the sketch recovery rule (CSVec.unSketch composed
with the linear table, see sketchedSum): it receives k = p2*k and the
accumulated sketch state and returns the candidate vector over the sketched
coordinates.  The update is weights scattered into the sketched slots and the
exact dense sums into the dense slots. -/
def all_reduce_sketched (unSk : ℕ → List ℚ → List ℚ) (w : FedWorker)
    (grads : List (List ℚ)) : List ℚ :=
  let cands := unSk (w.p2 * w.k) (sketchedSum w.sketch_mask grads)
  let exact := debiasCandidates cands grads
  let weights := topkSelect exact w.k
  scatterMask w.sketch_mask weights (denseSum w.sketch_mask grads)

/-- Effect of FedSketchedWorker._apply_update on the momentum buffer:
self.u[update.nonzero()] = 0. -/
def apply_update_u (u upd : List ℚ) : List ℚ :=
  setAtIndices u (nonzeroIndices upd) 0

/-- Effect of FedSketchedWorker._apply_update on the velocity buffer:
self.v[update.nonzero()] = 0 followed by self.v[~self.sketch_mask] = 0. -/
def apply_update_v (v upd : List ℚ) (mask : List Bool) : List ℚ :=
  setAtIndices (setAtIndices v (nonzeroIndices upd) 0) (denseIndices mask) 0

/-- Coordinator state of FedSketchedModel: the append-only round record, the
training flag and the sampling configuration. -/
structure ModelState where
  rounds : List (List ℕ)
  training : Bool
  num_workers : ℕ
  participation : ℚ

/-- The sample size of a training-mode forward call:
int(num_workers * participation).  Python int() truncates toward zero, which
for the nonnegative product num_workers * participation is the floor. -/
def sampleCount (num_workers : ℕ) (participation : ℚ) : ℕ :=
  (⌊(num_workers : ℚ) * participation⌋).toNat

/-- Result of a FedSketchedModel call: in training mode the gathered results
from the sampled participants (ray.get over their model_call futures); in
evaluation mode the un-awaited future of a single worker's model_call. -/
inductive CallResult where
  | gathered : List ℕ → CallResult
  | future : ℕ → CallResult

/-- FedSketchedModel.__call__.  choice models np.random.choice over
arange(num_workers) without replacement: given the requested sample size it
yields the drawn index list.  In training mode the drawn indices are appended
to the round record and the call dispatches to exactly those workers and
gathers their results; otherwise the state is untouched and the call returns
the un-awaited future of worker 0. -/
def modelCall (st : ModelState) (choice : ℕ → List ℕ) : ModelState × CallResult :=
  if st.training then
    let idx := choice (sampleCount st.num_workers st.participation)
    ({ st with rounds := st.rounds ++ [idx] }, CallResult.gathered idx)
  else
    (st, CallResult.future 0)

/-- FedSketchedOptimizer._get_workers: self.workers[self.model.rounds[-1]].
Workers are identified by their position in the workers array. -/
def optimizerGetWorkers (workers : List ℕ) (rounds : List (List ℕ)) : List ℕ :=
  (rounds.getLastD []).map (fun i => workers.getD i 0)

/-- FedSketchedLoss._get_workers: self.workers[self.model.rounds[-1]]. -/
def lossGetWorkers (workers : List ℕ) (rounds : List (List ℕ)) : List ℕ :=
  (rounds.getLastD []).map (fun i => workers.getD i 0)

/-- The train_workers of FedSketchedOptimizer.step. -/
def stepTrainWorkers (workers : List ℕ) (rounds : List (List ℕ)) : List ℕ :=
  optimizerGetWorkers workers rounds

/-- The update_workers of FedSketchedOptimizer.step:
np.append(train_workers, self.workers[0]). -/
def stepUpdateWorkers (workers : List ℕ) (rounds : List (List ℕ)) : List ℕ :=
  stepTrainWorkers workers rounds ++ [workers.getD 0 0]

/-- The all_reduce_sketched invocations issued by FedSketchedOptimizer._step:
one remote call per entry of update_workers, every one passed the same grads
list gathered from the train workers (gradOf gives each train worker's
contributed velocity vector). -/
def stepInvocations (gradOf : ℕ → List ℚ) (workers : List ℕ)
    (rounds : List (List ℕ)) : List (ℕ × List (List ℚ)) :=
  (stepUpdateWorkers workers rounds).map
    (fun w => (w, (stepTrainWorkers workers rounds).map gradOf))

/- Pointwise semantics of the vector operations. -/

lemma getD_tail (l : List ℚ) (i : ℕ) : l.tail.getD i 0 = l.getD (i + 1) 0 := by
  cases l <;> simp [List.getD]

lemma headD_eq_getD (l : List ℚ) : l.headD 0 = l.getD 0 0 := by
  cases l <;> simp [List.getD]

lemma vecAdd_length (xs ys : List ℚ) : (vecAdd xs ys).length = min xs.length ys.length := by
  simp [vecAdd]

lemma vecAdd_getD (xs ys : List ℚ) (i : ℕ) (h1 : i < xs.length) (h2 : i < ys.length) :
    (vecAdd xs ys).getD i 0 = xs.getD i 0 + ys.getD i 0 := by
  rw [List.getD_eq_getElem _ _ (by simp [vecAdd]; omega),
    List.getD_eq_getElem _ _ h1, List.getD_eq_getElem _ _ h2]
  simp [vecAdd]

lemma vecScale_length (c : ℚ) (xs : List ℚ) : (vecScale c xs).length = xs.length := by
  simp [vecScale]

lemma vecScale_getD (c : ℚ) (xs : List ℚ) (i : ℕ) :
    (vecScale c xs).getD i 0 = c * xs.getD i 0 := by
  have h := List.getD_map xs 0 (n := i) (fun x => c * x)
  simpa [vecScale] using h

lemma mapRange_getD (f : ℕ → ℚ) (n i : ℕ) (hi : i < n) :
    ((List.range n).map f).getD i 0 = f i := by
  rw [List.getD_eq_getElem _ _ (by simpa using hi)]
  simp

lemma vecSum_length (vs : List (List ℚ)) (n : ℕ) (h : ∀ v ∈ vs, v.length = n)
    (hvs : vs ≠ []) : (vecSum vs).length = n := by
  induction vs with
  | nil => exact absurd rfl hvs
  | cons v vs ih =>
    cases vs with
    | nil => simpa using h v (by simp)
    | cons v1 vs1 =>
      have hv : v.length = n := h v (by simp)
      have hrest : (vecSum (v1 :: vs1)).length = n := by
        refine ih ?_ (by simp)
        intro w hw
        exact h w (by simp [hw])
      simp [vecSum, vecAdd_length, hv, hrest]

lemma vecSum_getD (vs : List (List ℚ)) (n : ℕ) (h : ∀ v ∈ vs, v.length = n)
    (i : ℕ) (hi : i < n) :
    (vecSum vs).getD i 0 = (vs.map (fun v => v.getD i 0)).sum := by
  induction vs with
  | nil => simp [vecSum, List.getD]
  | cons v vs ih =>
    cases vs with
    | nil => simp [vecSum]
    | cons v1 vs1 =>
      have hv : v.length = n := h v (by simp)
      have hrest : ∀ w ∈ v1 :: vs1, w.length = n := by
        intro w hw
        exact h w (by simp [hw])
      have hlen : (vecSum (v1 :: vs1)).length = n := vecSum_length _ n hrest (by simp)
      have : vecSum (v :: v1 :: vs1) = vecAdd v (vecSum (v1 :: vs1)) := rfl
      rw [this, vecAdd_getD _ _ i (by omega) (by omega), ih hrest]
      simp

lemma maskedSelect_length (mask : List Bool) (g : List ℚ) (h : g.length = mask.length) :
    (maskedSelect mask g).length = countTrue mask := by
  induction mask generalizing g with
  | nil => cases g <;> simp [maskedSelect, countTrue] at h ⊢
  | cons b m ih =>
    cases g with
    | nil => simp at h
    | cons x xs =>
      have hx : xs.length = m.length := by simpa using h
      cases b with
      | true => simp [maskedSelect, countTrue, List.countP_cons, ih xs hx]
      | false =>
        rw [show maskedSelect (false :: m) (x :: xs) = maskedSelect m xs from rfl, ih xs hx]
        simp [countTrue, List.countP_cons]

lemma maskedSelect_getD (mask : List Bool) (g : List ℚ) (h : g.length = mask.length)
    (i : ℕ) (hi : i < mask.length) (hm : mask.getD i true = true) :
    (maskedSelect mask g).getD (trueRank mask i) 0 = g.getD i 0 := by
  induction mask generalizing g i with
  | nil => simp at hi
  | cons b m ih =>
    cases g with
    | nil => simp at h
    | cons x xs =>
      have hx : xs.length = m.length := by simpa using h
      cases i with
      | zero =>
        have hb : b = true := by simpa [List.getD] using hm
        subst hb
        simp [maskedSelect, trueRank, countTrue, List.getD]
      | succ i =>
        have hi1 : i < m.length := by simpa using hi
        have hm1 : m.getD i true = true := by simpa [List.getD] using hm
        have hrank : trueRank (b :: m) (i + 1) = trueRank m i + (if b then 1 else 0) := by
          cases b <;> simp [trueRank, countTrue, List.countP_cons]
        cases b with
        | true =>
          rw [hrank]
          simpa [maskedSelect, List.getD] using ih xs hx i hi1 hm1
        | false =>
          rw [hrank]
          simpa [maskedSelect, List.getD] using ih xs hx i hi1 hm1

lemma scatterMask_length (mask : List Bool) (sk dn : List ℚ) :
    (scatterMask mask sk dn).length = mask.length := by
  induction mask generalizing sk dn with
  | nil => simp [scatterMask]
  | cons b m ih => cases b <;> simp [scatterMask, ih]

lemma scatterMask_getD_false (mask : List Bool) (sk dn : List ℚ) (i : ℕ)
    (hi : i < mask.length) (hm : mask.getD i true = false) :
    (scatterMask mask sk dn).getD i 0 = dn.getD (trueRank (mask.map not) i) 0 := by
  induction mask generalizing sk dn i with
  | nil => simp at hi
  | cons b m ih =>
    cases i with
    | zero =>
      have hb : b = false := by simpa [List.getD] using hm
      subst hb
      simp [scatterMask, trueRank, countTrue, List.getD, headD_eq_getD,
        List.head?_eq_getElem?]
    | succ i =>
      have hi1 : i < m.length := by simpa using hi
      have hm1 : m.getD i true = false := by simpa [List.getD] using hm
      have hrank : trueRank ((b :: m).map not) (i + 1)
          = trueRank (m.map not) i + (if b then 0 else 1) := by
        simp [trueRank, countTrue, List.countP_cons]
        cases b <;> simp
      cases b with
      | true =>
        rw [hrank]
        simpa [scatterMask, List.getD] using ih sk.tail dn i hi1 hm1
      | false =>
        rw [hrank]
        have := ih sk dn.tail i hi1 hm1
        simpa [scatterMask, List.getD, getD_tail] using this

lemma maskedSelect_scatterMask (mask : List Bool) (sk dn : List ℚ)
    (h : sk.length = countTrue mask) :
    maskedSelect mask (scatterMask mask sk dn) = sk := by
  induction mask generalizing sk dn with
  | nil =>
    have : sk = [] := by
      cases sk with
      | nil => rfl
      | cons a t => simp [countTrue] at h
    simp [scatterMask, maskedSelect, this]
  | cons b m ih =>
    cases b with
    | true =>
      have hsk : sk ≠ [] := by
        intro hnil
        rw [hnil] at h
        simp [countTrue, List.countP_cons] at h
      cases sk with
      | nil => exact absurd rfl hsk
      | cons a t =>
        have ht : t.length = countTrue m := by
          have := h
          simp [countTrue, List.countP_cons] at this
          simpa [countTrue] using this
        simp [scatterMask, maskedSelect, ih t dn ht]
    | false =>
      have hsk : sk.length = countTrue m := by
        simpa [countTrue, List.countP_cons] using h
      simp [scatterMask, maskedSelect, ih sk dn.tail hsk]

lemma setAtIndices_length (idxs : List ℕ) (xs : List ℚ) (c : ℚ) :
    (setAtIndices xs idxs c).length = xs.length := by
  induction idxs generalizing xs with
  | nil => simp [setAtIndices]
  | cons i is ih => simp [setAtIndices, ih]

lemma getD_set_rat (xs : List ℚ) (i j : ℕ) (c : ℚ) :
    (xs.set i c).getD j 0 = if i = j ∧ j < xs.length then c else xs.getD j 0 := by
  rw [List.getD_eq_getElem?_getD, List.getD_eq_getElem?_getD, List.getElem?_set]
  by_cases hij : i = j
  · subst hij
    by_cases hlt : i < xs.length
    · simp [hlt]
    · have : xs[i]? = none := by
        rw [List.getElem?_eq_none_iff]
        omega
      simp [hlt, this]
  · simp [hij]

lemma setAtIndices_getD (idxs : List ℕ) (xs : List ℚ) (c : ℚ) (j : ℕ) :
    (setAtIndices xs idxs c).getD j 0
      = if j ∈ idxs ∧ j < xs.length then c else xs.getD j 0 := by
  induction idxs generalizing xs with
  | nil => simp [setAtIndices]
  | cons i is ih =>
    have step : setAtIndices xs (i :: is) c = setAtIndices (xs.set i c) is c := rfl
    rw [step, ih]
    rw [List.length_set]
    by_cases h1 : j ∈ is ∧ j < xs.length
    · rw [if_pos h1, if_pos ⟨List.mem_cons_of_mem i h1.1, h1.2⟩]
    · rw [if_neg h1, getD_set_rat]
      by_cases h2 : i = j ∧ j < xs.length
      · rw [if_pos h2, if_pos ⟨List.mem_cons.mpr (Or.inl h2.1.symm), h2.2⟩]
      · rw [if_neg h2]
        have hcond : ¬ (j ∈ i :: is ∧ j < xs.length) := by
          intro hc
          rcases List.mem_cons.mp hc.1 with he | hmem
          · exact h2 ⟨he.symm, hc.2⟩
          · exact h1 ⟨hmem, hc.2⟩
        rw [if_neg hcond]

lemma mem_nonzeroIndices (xs : List ℚ) (j : ℕ) :
    j ∈ nonzeroIndices xs ↔ j < xs.length ∧ xs.getD j 0 ≠ 0 := by
  simp [nonzeroIndices, List.mem_filter, List.mem_range]

lemma mem_denseIndices (mask : List Bool) (j : ℕ) :
    j ∈ denseIndices mask ↔ j < mask.length ∧ mask.getD j true = false := by
  simp [denseIndices, List.mem_filter, List.mem_range]

/- Properties of the top-k selection. -/

lemma topkIndices_length_le (vec : List ℚ) (k : ℕ) : (topkIndices vec k).length ≤ k := by
  simp only [topkIndices, List.length_drop, List.length_mergeSort, List.length_range]
  omega

lemma topkIndices_nodup (vec : List ℚ) (k : ℕ) : (topkIndices vec k).Nodup := by
  have hperm := (List.mergeSort_perm (List.range vec.length) (sqLe vec)).symm
  have hnodup := hperm.nodup (List.nodup_range vec.length)
  exact (List.drop_sublist _ _).nodup hnodup

lemma topkSelect_length (vec : List ℚ) (k : ℕ) : (topkSelect vec k).length = vec.length := by
  simp [topkSelect]

lemma topkSelect_getD (vec : List ℚ) (k i : ℕ) (hi : i < vec.length) :
    (topkSelect vec k).getD i 0 = if i ∈ topkIndices vec k then vec.getD i 0 else 0 :=
  mapRange_getD _ _ _ hi

lemma countNonzero_topkSelect (vec : List ℚ) (k : ℕ) :
    (topkSelect vec k).countP (fun x => decide (x ≠ 0)) ≤ k := by
  rw [topkSelect, List.countP_map]
  rw [List.countP_eq_length_filter]
  have hsub : (List.range vec.length).filter
      ((fun x => decide (x ≠ 0)) ∘ fun i => if i ∈ topkIndices vec k then vec.getD i 0 else 0)
      ⊆ topkIndices vec k := by
    intro x hx
    have hx2 := (List.mem_filter.mp hx).2
    by_cases hmem : x ∈ topkIndices vec k
    · exact hmem
    · simp [hmem] at hx2
  have hnodup : ((List.range vec.length).filter
      ((fun x => decide (x ≠ 0)) ∘ fun i => if i ∈ topkIndices vec k then vec.getD i 0 else 0)).Nodup :=
    (List.nodup_range vec.length).filter _
  calc ((List.range vec.length).filter _).length
      ≤ (topkIndices vec k).length := (List.subperm_of_subset hnodup hsub).length_le
  _ ≤ k := topkIndices_length_le vec k

lemma topkSelect_nonzero (vec : List ℚ) (k i : ℕ)
    (h : (topkSelect vec k).getD i 0 ≠ 0) :
    i < vec.length ∧ i ∈ topkIndices vec k ∧ (topkSelect vec k).getD i 0 = vec.getD i 0 := by
  have hi : i < vec.length := by
    by_contra hge
    have : (topkSelect vec k).getD i 0 = 0 := by
      apply List.getD_eq_default
      rw [topkSelect_length]
      omega
    exact h this
  rw [topkSelect_getD vec k i hi] at h ⊢
  by_cases hmem : i ∈ topkIndices vec k
  · exact ⟨hi, hmem, by simp [hmem]⟩
  · simp [hmem] at h

lemma topk_magnitude (vec : List ℚ) (k i j : ℕ) (hj : j < vec.length)
    (hmem : i ∈ topkIndices vec k) (hnot : j ∉ topkIndices vec k) :
    vec.getD j 0 * vec.getD j 0 ≤ vec.getD i 0 * vec.getD i 0 := by
  have htrans : ∀ a b c : ℕ, sqLe vec a b = true → sqLe vec b c = true → sqLe vec a c = true := by
    intro a b c hab hbc
    simp only [sqLe, decide_eq_true_eq] at *
    exact le_trans hab hbc
  have htotal : ∀ a b : ℕ, (sqLe vec a b || sqLe vec b a) = true := by
    intro a b
    simp only [sqLe, Bool.or_eq_true, decide_eq_true_eq]
    exact le_total _ _
  have hsorted := List.sorted_mergeSort htrans htotal (List.range vec.length)
  have hsplit : (List.range vec.length).mergeSort (sqLe vec)
      = ((List.range vec.length).mergeSort (sqLe vec)).take (vec.length - k)
        ++ topkIndices vec k := by
    rw [topkIndices]
    exact (List.take_append_drop _ _).symm
  have hjmem : j ∈ (List.range vec.length).mergeSort (sqLe vec) :=
    ((List.mergeSort_perm _ (sqLe vec)).mem_iff).mpr (by simpa using hj)
  have hjtake : j ∈ ((List.range vec.length).mergeSort (sqLe vec)).take (vec.length - k) := by
    rw [hsplit] at hjmem
    rcases List.mem_append.mp hjmem with h | h
    · exact h
    · exact absurd h hnot
  rw [hsplit] at hsorted
  have hle := (List.pairwise_append.mp hsorted).2.2 j hjtake i hmem
  simpa [sqLe] using hle

/- Rank bookkeeping for masked selection and scattering. -/

lemma getD_map_not (mask : List Bool) (i : ℕ) (hi : i < mask.length) :
    (mask.map not).getD i true = !(mask.getD i true) := by
  rw [List.getD_eq_getElem _ _ (by simpa using hi), List.getD_eq_getElem _ _ hi]
  simp

lemma trueRank_lt_countTrue (mask : List Bool) (i : ℕ) (hi : i < mask.length)
    (hm : mask.getD i true = true) : trueRank mask i < countTrue mask := by
  have hmi : mask[i] = true := by
    rw [List.getD_eq_getElem _ _ hi] at hm
    exact hm
  have hdrop : mask.drop i = mask[i] :: mask.drop (i + 1) := List.drop_eq_getElem_cons hi
  have hsplit : countTrue mask = countTrue (mask.take i) + countTrue (mask.drop i) := by
    conv_lhs => rw [show mask = mask.take i ++ mask.drop i from (List.take_append_drop i mask).symm]
    simp only [countTrue, List.countP_append]
  rw [hsplit, hdrop]
  have : countTrue (mask[i] :: mask.drop (i + 1))
      = countTrue (mask.drop (i + 1)) + 1 := by
    simp [countTrue, List.countP_cons, hmi]
  rw [this]
  have : trueRank mask i = countTrue (mask.take i) := rfl
  omega

/- Unfolding equations of compute_grad for the two momentum rules. -/

lemma compute_grad_false_eq (momentum wd : ℚ) (nw : ℕ) (grad param u v : List ℚ) :
    compute_grad false momentum wd nw grad param u v
      = (vecAdd (vecScale momentum u)
            (if wd ≠ 0 then vecAdd grad (vecScale (wd / (nw : ℚ)) param) else grad),
         vecAdd v (vecAdd (vecScale momentum u)
            (if wd ≠ 0 then vecAdd grad (vecScale (wd / (nw : ℚ)) param) else grad)),
         vecAdd v (vecAdd (vecScale momentum u)
            (if wd ≠ 0 then vecAdd grad (vecScale (wd / (nw : ℚ)) param) else grad))) := rfl

lemma compute_grad_true_eq (momentum wd : ℚ) (nw : ℕ) (grad param u v : List ℚ) :
    compute_grad true momentum wd nw grad param u v
      = (vecScale momentum (vecAdd u
            (if wd ≠ 0 then vecAdd grad (vecScale (wd / (nw : ℚ)) param) else grad)),
         vecAdd (vecAdd v (vecScale momentum (vecAdd u
            (if wd ≠ 0 then vecAdd grad (vecScale (wd / (nw : ℚ)) param) else grad))))
            (if wd ≠ 0 then vecAdd grad (vecScale (wd / (nw : ℚ)) param) else grad),
         vecAdd (vecAdd v (vecScale momentum (vecAdd u
            (if wd ≠ 0 then vecAdd grad (vecScale (wd / (nw : ℚ)) param) else grad))))
            (if wd ≠ 0 then vecAdd grad (vecScale (wd / (nw : ℚ)) param) else grad)) := rfl

lemma gradVec_length (wd : ℚ) (nw : ℕ) (grad param : List ℚ)
    (hp : param.length = grad.length) :
    (if wd ≠ 0 then vecAdd grad (vecScale (wd / (nw : ℚ)) param) else grad).length
      = grad.length := by
  by_cases h : wd ≠ 0 <;> simp [h, vecAdd_length, vecScale_length, hp]

lemma gradVec_getD (wd : ℚ) (nw : ℕ) (grad param : List ℚ)
    (hp : param.length = grad.length) (i : ℕ) (hi : i < grad.length) :
    (if wd ≠ 0 then vecAdd grad (vecScale (wd / (nw : ℚ)) param) else grad).getD i 0
      = (if wd ≠ 0 then grad.getD i 0 + wd / (nw : ℚ) * param.getD i 0
         else grad.getD i 0) := by
  by_cases h : wd ≠ 0
  · rw [if_pos h, if_pos h,
      vecAdd_getD _ _ i hi (by rw [vecScale_length]; omega), vecScale_getD]
  · rw [if_neg h, if_neg h]

/-- Claim C3: in every local gradient-computation step, a nonzero weight decay
augments the raw gradient with (weight_decay / num_workers) times the current
parameter vector; with the nesterov flag off, u becomes momentum * u plus the
gradient and v becomes v plus the new u; with the flag on, u becomes
momentum * (u + gradient) and v becomes v plus the new u plus the gradient;
and the call returns the updated velocity buffer. -/
theorem compute_grad_step (nesterov : Bool) (momentum wd : ℚ) (nw : ℕ)
    (grad param u v : List ℚ) (hp : param.length = grad.length)
    (hu : u.length = grad.length) (hv : v.length = grad.length)
    (i : ℕ) (hi : i < grad.length) :
    (compute_grad nesterov momentum wd nw grad param u v).2.2
        = (compute_grad nesterov momentum wd nw grad param u v).2.1 ∧
      (compute_grad nesterov momentum wd nw grad param u v).1.getD i 0
        = (if nesterov then
            momentum * (u.getD i 0 +
              (if wd ≠ 0 then grad.getD i 0 + wd / (nw : ℚ) * param.getD i 0
               else grad.getD i 0))
           else momentum * u.getD i 0 +
              (if wd ≠ 0 then grad.getD i 0 + wd / (nw : ℚ) * param.getD i 0
               else grad.getD i 0)) ∧
      (compute_grad nesterov momentum wd nw grad param u v).2.1.getD i 0
        = (if nesterov then
            v.getD i 0 + (compute_grad nesterov momentum wd nw grad param u v).1.getD i 0 +
              (if wd ≠ 0 then grad.getD i 0 + wd / (nw : ℚ) * param.getD i 0
               else grad.getD i 0)
           else
            v.getD i 0 + (compute_grad nesterov momentum wd nw grad param u v).1.getD i 0) := by
  have hglen := gradVec_length wd nw grad param hp
  have hgget := gradVec_getD wd nw grad param hp i hi
  cases nesterov with
  | false =>
    have h1 : (compute_grad false momentum wd nw grad param u v).1
        = vecAdd (vecScale momentum u)
          (if wd ≠ 0 then vecAdd grad (vecScale (wd / (nw : ℚ)) param) else grad) := rfl
    have h21 : (compute_grad false momentum wd nw grad param u v).2.1
        = vecAdd v (compute_grad false momentum wd nw grad param u v).1 := rfl
    refine ⟨rfl, ?_, ?_⟩
    · rw [if_neg Bool.false_ne_true, h1,
        vecAdd_getD _ _ i (by rw [vecScale_length]; omega) (by omega), vecScale_getD, hgget]
    · rw [if_neg Bool.false_ne_true, h21,
        vecAdd_getD _ _ i (by omega)
          (by rw [h1, vecAdd_length, vecScale_length, hglen]; omega)]
  | true =>
    have h1 : (compute_grad true momentum wd nw grad param u v).1
        = vecScale momentum (vecAdd u
          (if wd ≠ 0 then vecAdd grad (vecScale (wd / (nw : ℚ)) param) else grad)) := rfl
    have h21 : (compute_grad true momentum wd nw grad param u v).2.1
        = vecAdd (vecAdd v (compute_grad true momentum wd nw grad param u v).1)
          (if wd ≠ 0 then vecAdd grad (vecScale (wd / (nw : ℚ)) param) else grad) := rfl
    refine ⟨rfl, ?_, ?_⟩
    · rw [if_pos rfl, h1, vecScale_getD, vecAdd_getD _ _ i (by omega) (by omega), hgget]
    · rw [if_pos rfl, h21,
        vecAdd_getD _ _ i
          (by rw [vecAdd_length, h1, vecScale_length, vecAdd_length, hglen]; omega)
          (by omega),
        vecAdd_getD _ _ i (by omega)
          (by rw [h1, vecScale_length, vecAdd_length, hglen]; omega),
        hgget]

/-- Witness for C3: a concrete nesterov step with weight decay zero, momentum
2, gradient [3], u [4], v [5]. -/
theorem compute_grad_step_witness :
    (compute_grad true 2 0 1 [3] [10] [4] [5]).2.2
        = (compute_grad true 2 0 1 [3] [10] [4] [5]).2.1 ∧
      (compute_grad true 2 0 1 [3] [10] [4] [5]).1.getD 0 0
        = 2 * (([(4 : ℚ)]).getD 0 0 + ([(3 : ℚ)]).getD 0 0) :=
  ⟨(compute_grad_step true 2 0 1 [3] [10] [4] [5] rfl rfl rfl 0 (by decide)).1,
   (compute_grad_step true 2 0 1 [3] [10] [4] [5] rfl rfl rfl 0 (by decide)).2.1⟩

/-- Claim C2: after the update-application step with a full-length weight
update vector, the momentum buffer u and velocity buffer v are zero at every
nonzero coordinate of the update, v is additionally zero at every dense
(non-sketched) coordinate, and u and v are unchanged at every other
coordinate. -/
theorem apply_update_frame (u v upd : List ℚ) (mask : List Bool)
    (hu : u.length = upd.length) (hv : v.length = upd.length)
    (hm : mask.length = upd.length) (i : ℕ) (hi : i < upd.length) :
    (apply_update_u u upd).getD i 0 = (if upd.getD i 0 ≠ 0 then 0 else u.getD i 0) ∧
      (apply_update_v v upd mask).getD i 0
        = (if upd.getD i 0 ≠ 0 ∨ mask.getD i true = false then 0 else v.getD i 0) := by
  constructor
  · rw [apply_update_u, setAtIndices_getD]
    by_cases h : upd.getD i 0 ≠ 0
    · rw [if_pos ⟨(mem_nonzeroIndices upd i).mpr ⟨hi, h⟩, by omega⟩, if_pos h]
    · rw [if_neg, if_neg h]
      intro hc
      exact h ((mem_nonzeroIndices upd i).mp hc.1).2
  · rw [apply_update_v, setAtIndices_getD, setAtIndices_length, setAtIndices_getD]
    by_cases hd : mask.getD i true = false
    · rw [if_pos ⟨(mem_denseIndices mask i).mpr ⟨by omega, hd⟩, by omega⟩,
        if_pos (Or.inr hd)]
    · rw [if_neg (by
        intro hc
        exact hd ((mem_denseIndices mask i).mp hc.1).2)]
      by_cases h : upd.getD i 0 ≠ 0
      · rw [if_pos ⟨(mem_nonzeroIndices upd i).mpr ⟨hi, h⟩, by omega⟩, if_pos (Or.inl h)]
      · rw [if_neg (by
          intro hc
          exact h ((mem_nonzeroIndices upd i).mp hc.1).2),
          if_neg (by
            intro hc
            rcases hc with hc | hc
            · exact h hc
            · exact hd hc)]

/-- Witness for C2: update [5, 0] with mask [true, false] at coordinate 1
keeps u and zeroes the dense velocity coordinate. -/
theorem apply_update_frame_witness :
    (apply_update_u [1, 2] [5, 0]).getD 1 0
        = (if ([(5 : ℚ), 0]).getD 1 0 ≠ 0 then 0 else ([(1 : ℚ), 2]).getD 1 0) ∧
      (apply_update_v [3, 4] [5, 0] [true, false]).getD 1 0
        = (if ([(5 : ℚ), 0]).getD 1 0 ≠ 0 ∨ ([true, false] : List Bool).getD 1 true = false
           then 0 else ([(3 : ℚ), 4]).getD 1 0) :=
  apply_update_frame [1, 2] [3, 4] [5, 0] [true, false] rfl rfl rfl 1 (by decide)

/-- Claim C7: the aggregation output is a deterministic pure function of the
ordered list of contributed vectors: two update workers that agree on the
sketch configuration (mask, k, p2, and the shared fixed recovery rule) but
hold arbitrary different momentum and velocity buffers compute identical
weight updates on the same grads list. -/
theorem all_reduce_deterministic (unSk : ℕ → List ℚ → List ℚ) (w1 w2 : FedWorker)
    (grads : List (List ℚ)) (hmask : w1.sketch_mask = w2.sketch_mask)
    (hk : w1.k = w2.k) (hp2 : w1.p2 = w2.p2) :
    all_reduce_sketched unSk w1 grads = all_reduce_sketched unSk w2 grads := by
  rw [all_reduce_sketched, all_reduce_sketched, hmask, hk, hp2]

/-- Witness for C7: two workers with different u and v buffers compute the
same update on the same single contributed vector. -/
theorem all_reduce_deterministic_witness :
    all_reduce_sketched (fun _ s => s) ⟨[1], [2], [true], 1, 1⟩ [[4]]
      = all_reduce_sketched (fun _ s => s) ⟨[9], [7], [true], 1, 1⟩ [[4]] :=
  all_reduce_deterministic (fun _ s => s) ⟨[1], [2], [true], 1, 1⟩
    ⟨[9], [7], [true], 1, 1⟩ [[4]] rfl rfl rfl

/-- Claim C10: with training off, a model call leaves the coordinator state
(including the round record) unchanged, performs no participant sampling (the
result does not depend on the sampler), and returns the un-awaited future of
worker 0 rather than gathered outputs. -/
theorem eval_mode_frame (st : ModelState) (c1 c2 : ℕ → List ℕ)
    (heval : st.training = false) :
    (modelCall st c1).1 = st ∧
      (modelCall st c1).2 = CallResult.future 0 ∧
      modelCall st c1 = modelCall st c2 := by
  refine ⟨?_, ?_, ?_⟩ <;> simp [modelCall, heval]

/-- Witness for C10: a concrete non-training state. -/
theorem eval_mode_frame_witness :
    (modelCall ⟨[[2]], false, 4, 1⟩ (fun n => List.range n)).1 = ⟨[[2]], false, 4, 1⟩ ∧
      (modelCall ⟨[[2]], false, 4, 1⟩ (fun n => List.range n)).2 = CallResult.future 0 ∧
      modelCall ⟨[[2]], false, 4, 1⟩ (fun n => List.range n)
        = modelCall ⟨[[2]], false, 4, 1⟩ (fun _ => [3]) :=
  eval_mode_frame ⟨[[2]], false, 4, 1⟩ (fun n => List.range n) (fun _ => [3]) rfl

/-- Claim C6: the loss evaluation and the optimizer step both read the last
entry of the round record, so right after a training-mode forward call they
operate on exactly the index set that call appended, and a second forward
call replaces the subset used by later loss and optimizer calls. -/
theorem round_alignment (workers : List ℕ) (st : ModelState) (c1 c2 : ℕ → List ℕ)
    (htrain : st.training = true) :
    optimizerGetWorkers workers (modelCall st c1).1.rounds
        = (c1 (sampleCount st.num_workers st.participation)).map
            (fun x => workers.getD x 0) ∧
      lossGetWorkers workers (modelCall st c1).1.rounds
        = (c1 (sampleCount st.num_workers st.participation)).map
            (fun x => workers.getD x 0) ∧
      optimizerGetWorkers workers (modelCall (modelCall st c1).1 c2).1.rounds
        = (c2 (sampleCount st.num_workers st.participation)).map
            (fun x => workers.getD x 0) ∧
      lossGetWorkers workers (modelCall (modelCall st c1).1 c2).1.rounds
        = (c2 (sampleCount st.num_workers st.participation)).map
            (fun x => workers.getD x 0) := by
  refine ⟨?_, ?_, ?_, ?_⟩ <;>
    simp [modelCall, htrain, optimizerGetWorkers, lossGetWorkers, List.getLastD_concat]

/-- Witness for C6: two workers, participation 1, a first forward call
sampling with range and a second one sampling [1]. -/
theorem round_alignment_witness :
    optimizerGetWorkers [7, 8] (modelCall ⟨[], true, 2, 1⟩ (fun n => List.range n)).1.rounds
        = ((fun n => List.range n) (sampleCount 2 1)).map (fun x => ([7, 8]).getD x 0) ∧
      lossGetWorkers [7, 8] (modelCall ⟨[], true, 2, 1⟩ (fun n => List.range n)).1.rounds
        = ((fun n => List.range n) (sampleCount 2 1)).map (fun x => ([7, 8]).getD x 0) ∧
      optimizerGetWorkers [7, 8]
          (modelCall (modelCall ⟨[], true, 2, 1⟩ (fun n => List.range n)).1
            (fun _ => [1])).1.rounds
        = ((fun _ => [1]) (sampleCount 2 1)).map (fun x => ([7, 8]).getD x 0) ∧
      lossGetWorkers [7, 8]
          (modelCall (modelCall ⟨[], true, 2, 1⟩ (fun n => List.range n)).1
            (fun _ => [1])).1.rounds
        = ((fun _ => [1]) (sampleCount 2 1)).map (fun x => ([7, 8]).getD x 0) :=
  round_alignment [7, 8] ⟨[], true, 2, 1⟩ (fun n => List.range n) (fun _ => [1]) rfl

/-- Counterexample to C4: with 4 workers and participation rate 3/10, a
training-mode forward call appends an entry of int(4 * 3/10) = 1 sampled
index, not the ceiling 2 the claim requires. -/
theorem forward_sample_count_counterexample :
    ((modelCall ⟨[], true, 4, 3/10⟩ (fun n => List.range n)).1.rounds.getLastD []).length
        = 1 ∧
      Nat.ceil (((4 : ℕ) : ℚ) * (3/10)) = 2 ∧ (1 : ℕ) ≠ 2 := by
  refine ⟨?_, ?_, by decide⟩
  · have hfl : ⌊(4 : ℚ) * (3/10)⌋ = 1 := by
      rw [Int.floor_eq_iff]
      norm_num
    simp [modelCall, sampleCount, List.getLastD_concat, hfl]
  · rw [show ((4 : ℕ) : ℚ) * (3/10) = 6/5 by norm_num,
      Nat.ceil_eq_iff (by norm_num)]
    norm_num

/-- Claim C4 amended: a training-mode forward call over a sampler drawing
distinct indices appends exactly one new entry to the round record, of
length int(num_workers * participation), the floor (truncation) of the
product, not its ceiling. -/
theorem forward_sample_count_amended (st : ModelState) (choice : ℕ → List ℕ)
    (hlen : ∀ n, (choice n).length = n) (hnodup : ∀ n, (choice n).Nodup)
    (htrain : st.training = true) :
    (modelCall st choice).1.rounds
        = st.rounds ++ [choice (sampleCount st.num_workers st.participation)] ∧
      ((modelCall st choice).1.rounds.getLastD []).length
        = (⌊(st.num_workers : ℚ) * st.participation⌋).toNat ∧
      ((modelCall st choice).1.rounds.getLastD []).Nodup := by
  refine ⟨?_, ?_, ?_⟩ <;>
    simp [modelCall, htrain, List.getLastD_concat, hlen, hnodup, sampleCount]

/-- Witness for the amended C4: 4 workers at participation 1/2 sample
int(4 * 1/2) = 2 distinct indices. -/
theorem forward_sample_count_amended_witness :
    (modelCall ⟨[], true, 4, 1/2⟩ (fun n => List.range n)).1.rounds
        = [] ++ [List.range (sampleCount 4 (1/2))] ∧
      ((modelCall ⟨[], true, 4, 1/2⟩ (fun n => List.range n)).1.rounds.getLastD []).length
        = (⌊((4 : ℕ) : ℚ) * (1/2)⌋).toNat ∧
      ((modelCall ⟨[], true, 4, 1/2⟩ (fun n => List.range n)).1.rounds.getLastD []).Nodup :=
  forward_sample_count_amended ⟨[], true, 4, 1/2⟩ (fun n => List.range n)
    (fun n => by simp) (fun n => List.nodup_range n) rfl

/-- Counterexample to C5: with workers [10, 11] and round entry [0], worker
10 is both the sampled participant and the appended workers[0], so the step
issues the aggregation to it twice, not exactly once. -/
theorem step_head_runs_twice_counterexample :
    List.count 10 ((stepInvocations (fun _ => []) [10, 11] [[0]]).map Prod.fst) = 2 ∧
      (2 : ℕ) ≠ 1 := by
  refine ⟨by decide, by decide⟩

/-- Claim C5 amended: every aggregation invocation issued by the optimizer
step carries the same ordered grads list, gathered from the current round's
train workers; the invocation targets are the train workers with workers[0]
appended, so any worker other than workers[0] runs the aggregation once per
occurrence among the participants, while workers[0] runs it once more than
that (twice if sampled). -/
theorem step_update_workers_amended (gradOf : ℕ → List ℚ) (workers : List ℕ)
    (rounds : List (List ℕ)) (w : ℕ) :
    (∀ p ∈ stepInvocations gradOf workers rounds,
        p.2 = (stepTrainWorkers workers rounds).map gradOf) ∧
      List.count w ((stepInvocations gradOf workers rounds).map Prod.fst)
        = List.count w (stepTrainWorkers workers rounds)
            + (if w = workers.getD 0 0 then 1 else 0) ∧
      (w ∈ (stepInvocations gradOf workers rounds).map Prod.fst ↔
        w ∈ stepTrainWorkers workers rounds ∨ w = workers.getD 0 0) := by
  have hfst : (stepInvocations gradOf workers rounds).map Prod.fst
      = stepUpdateWorkers workers rounds := by
    rw [stepInvocations, List.map_map]
    have h : ∀ x ∈ stepUpdateWorkers workers rounds,
        (Prod.fst ∘ fun y => (y, (stepTrainWorkers workers rounds).map gradOf)) x
          = id x := fun x _ => rfl
    rw [List.map_congr_left h, List.map_id]
  refine ⟨?_, ?_, ?_⟩
  · intro p hp
    simp only [stepInvocations, List.mem_map] at hp
    obtain ⟨a, _, ha⟩ := hp
    rw [← ha]
  · rw [hfst, stepUpdateWorkers, List.count_append]
    by_cases hw : w = workers.getD 0 0
    · simp [List.count_cons, beq_iff_eq, hw]
    · have hw2 : ¬ workers[0]?.getD 0 = w := by
        rw [← List.getD_eq_getElem?_getD]
        exact fun h => hw h.symm
      have hw3 : ¬ w = workers[0]?.getD 0 := by
        rw [← List.getD_eq_getElem?_getD]
        exact hw
      simp [List.count_cons, beq_iff_eq, hw, hw2, hw3]
  · rw [hfst, stepUpdateWorkers]
    simp

/-- Witness for the amended C5: worker 11 is sampled but is not workers[0],
so it receives exactly one aggregation invocation. -/
theorem step_update_workers_amended_witness :
    List.count 11 ((stepInvocations (fun _ => []) [10, 11] [[1]]).map Prod.fst)
        = List.count 11 (stepTrainWorkers [10, 11] [[1]])
            + (if 11 = ([10, 11] : List ℕ).getD 0 0 then 1 else 0) ∧
      (11 ∈ (stepInvocations (fun _ => []) [10, 11] [[1]]).map Prod.fst ↔
        11 ∈ stepTrainWorkers [10, 11] [[1]] ∨ 11 = ([10, 11] : List ℕ).getD 0 0) :=
  ⟨(step_update_workers_amended (fun _ => []) [10, 11] [[1]] 11).2.1,
   (step_update_workers_amended (fun _ => []) [10, 11] [[1]] 11).2.2⟩

lemma debiasCandidates_length (cands : List ℚ) (grads : List (List ℚ)) :
    (debiasCandidates cands grads).length = cands.length := by
  simp [debiasCandidates]

/-- Claim C8: at every coordinate outside the sketch mask, the weight update
computed by the aggregation equals the exact elementwise sum of that
coordinate across all contributed vectors, for every recovery rule and all
inputs. -/
theorem dense_coordinates_exact (unSk : ℕ → List ℚ → List ℚ) (w : FedWorker)
    (grads : List (List ℚ)) (hg : ∀ g ∈ grads, g.length = w.sketch_mask.length)
    (i : ℕ) (hi : i < w.sketch_mask.length)
    (hmi : w.sketch_mask.getD i true = false) :
    (all_reduce_sketched unSk w grads).getD i 0 = coordSum grads i := by
  have hnm : (w.sketch_mask.map not).getD i true = true := by
    rw [getD_map_not _ _ hi, hmi]
    rfl
  have hrank : trueRank (w.sketch_mask.map not) i < countTrue (w.sketch_mask.map not) :=
    trueRank_lt_countTrue _ i (by simpa using hi) hnm
  have h1 : (all_reduce_sketched unSk w grads).getD i 0
      = (denseSum w.sketch_mask grads).getD (trueRank (w.sketch_mask.map not) i) 0 := by
    simp only [all_reduce_sketched]
    exact scatterMask_getD_false _ _ _ i hi hmi
  have h2 : ∀ g ∈ grads.map (fun g => maskedSelect (w.sketch_mask.map not) g),
      g.length = countTrue (w.sketch_mask.map not) := by
    intro g hgm
    obtain ⟨g0, hg0, rfl⟩ := List.mem_map.mp hgm
    exact maskedSelect_length _ _ (by rw [hg g0 hg0]; simp)
  rw [h1, denseSum, vecSum_getD _ (countTrue (w.sketch_mask.map not)) h2 _ hrank,
    List.map_map, coordSum]
  congr 1
  apply List.map_congr_left
  intro g hgmem
  show (maskedSelect (w.sketch_mask.map not) g).getD (trueRank (w.sketch_mask.map not) i) 0
      = g.getD i 0
  exact maskedSelect_getD _ g (by rw [hg g hgmem]; simp) i (by simpa using hi) hnm

/-- Witness for C8: mask [false, true], one contributed vector [5, 3]; the
dense coordinate 0 of the update equals the exact sum 5. -/
theorem dense_coordinates_exact_witness :
    (all_reduce_sketched (fun _ s => s) ⟨[], [], [false, true], 1, 1⟩ [[5, 3]]).getD 0 0
      = coordSum [[(5 : ℚ), 3]] 0 :=
  dense_coordinates_exact (fun _ s => s) ⟨[], [], [false, true], 1, 1⟩ [[5, 3]]
    (by simp) 0 (by decide) rfl

/-- Claim C9: the sketched portion of the aggregated update is exactly the
top-k selection applied to the exact-valued candidate vector: it has at most
k nonzero entries, every nonzero entry carries the candidate's value, and
every zeroed position has squared candidate value at most that of any
surviving position. -/
theorem topk_sparsity (unSk : ℕ → List ℚ → List ℚ) (w : FedWorker)
    (grads : List (List ℚ))
    (hu : (unSk (w.p2 * w.k) (sketchedSum w.sketch_mask grads)).length
        = countTrue w.sketch_mask) :
    maskedSelect w.sketch_mask (all_reduce_sketched unSk w grads)
        = topkSelect
            (debiasCandidates (unSk (w.p2 * w.k) (sketchedSum w.sketch_mask grads)) grads)
            w.k ∧
      (maskedSelect w.sketch_mask (all_reduce_sketched unSk w grads)).countP
          (fun x => decide (x ≠ 0)) ≤ w.k ∧
      (∀ i j : ℕ,
        (maskedSelect w.sketch_mask (all_reduce_sketched unSk w grads)).getD i 0 ≠ 0 →
        j < (maskedSelect w.sketch_mask (all_reduce_sketched unSk w grads)).length →
        (maskedSelect w.sketch_mask (all_reduce_sketched unSk w grads)).getD j 0 = 0 →
          (maskedSelect w.sketch_mask (all_reduce_sketched unSk w grads)).getD i 0
              = (debiasCandidates
                  (unSk (w.p2 * w.k) (sketchedSum w.sketch_mask grads)) grads).getD i 0 ∧
            (debiasCandidates
                (unSk (w.p2 * w.k) (sketchedSum w.sketch_mask grads)) grads).getD j 0
                * (debiasCandidates
                    (unSk (w.p2 * w.k) (sketchedSum w.sketch_mask grads)) grads).getD j 0
              ≤ (debiasCandidates
                  (unSk (w.p2 * w.k) (sketchedSum w.sketch_mask grads)) grads).getD i 0
                  * (debiasCandidates
                      (unSk (w.p2 * w.k) (sketchedSum w.sketch_mask grads)) grads).getD i 0) := by
  have heq : maskedSelect w.sketch_mask (all_reduce_sketched unSk w grads)
      = topkSelect
          (debiasCandidates (unSk (w.p2 * w.k) (sketchedSum w.sketch_mask grads)) grads)
          w.k := by
    simp only [all_reduce_sketched]
    exact maskedSelect_scatterMask _ _ _
      (by rw [topkSelect_length, debiasCandidates_length, hu])
  refine ⟨heq, ?_, ?_⟩
  · rw [heq]
    exact countNonzero_topkSelect _ _
  · intro i j hne hjlt hjz
    rw [heq] at hne hjlt hjz ⊢
    obtain ⟨hi, hmem, hval⟩ := topkSelect_nonzero _ w.k i hne
    refine ⟨hval, ?_⟩
    rw [topkSelect_length] at hjlt
    rw [topkSelect_getD _ w.k j hjlt] at hjz
    by_cases hjm : j ∈ topkIndices
        (debiasCandidates (unSk (w.p2 * w.k) (sketchedSum w.sketch_mask grads)) grads) w.k
    · rw [if_pos hjm] at hjz
      rw [hjz]
      simpa using mul_self_nonneg
        ((debiasCandidates
          (unSk (w.p2 * w.k) (sketchedSum w.sketch_mask grads)) grads).getD i 0)
    · exact topk_magnitude _ w.k i j hjlt hmem hjm

/-- Witness for C9: a single sketched coordinate with k = 1. -/
theorem topk_sparsity_witness :
    maskedSelect [true] (all_reduce_sketched (fun _ s => s) ⟨[], [], [true], 1, 1⟩ [[2]])
        = topkSelect (debiasCandidates (sketchedSum [true] [[2]]) [[2]]) 1 ∧
      (maskedSelect [true]
          (all_reduce_sketched (fun _ s => s) ⟨[], [], [true], 1, 1⟩ [[2]])).countP
        (fun x => decide (x ≠ 0)) ≤ 1 :=
  ⟨(topk_sparsity (fun _ s => s) ⟨[], [], [true], 1, 1⟩ [[2]] rfl).1,
   (topk_sparsity (fun _ s => s) ⟨[], [], [true], 1, 1⟩ [[2]] rfl).2.1⟩

/-- Claim C1, failing evaluation: with sketch_mask [false, true] and the one
contributed vector [5, 3], the sketched sub-range is [3] and recovery (here
the identity rule on the accumulated state) surfaces candidate coordinate 0
of the sketched subspace, which is full coordinate 1.  The de-biasing step
indexes the full contributed vectors with the compressed candidate position,
so it carries the value 5 (the sum at full coordinate 0) into the top-k
selection and into the final update at full coordinate 1, while the exact
elementwise sum of the surfaced coordinate is 3. -/
theorem debias_wrong_index_eval :
    debiasCandidates (sketchedSum [false, true] [[5, 3]]) [[5, 3]] = [5] ∧
      all_reduce_sketched (fun _ s => s) ⟨[], [], [false, true], 1, 1⟩ [[5, 3]] = [5, 5] ∧
      coordSum [[(5 : ℚ), 3]] 1 = 3 ∧ ((5 : ℚ) ≠ 3) := by
  have hsk : sketchedSum [false, true] [[(5 : ℚ), 3]] = [3] := by
    simp [sketchedSum, vecSum, maskedSelect]
  have hdb : debiasCandidates (sketchedSum [false, true] [[(5 : ℚ), 3]]) [[5, 3]] = [5] := by
    rw [hsk]
    simp [debiasCandidates, coordSum, List.range_succ]
  refine ⟨hdb, ?_, by simp [coordSum], by norm_num⟩
  have hdn : denseSum [false, true] [[(5 : ℚ), 3]] = [5] := by
    simp [denseSum, vecSum, maskedSelect]
  have htk : topkSelect [(5 : ℚ)] 1 = [5] := by
    simp [topkSelect, topkIndices, List.range_succ]
  simp only [all_reduce_sketched]
  rw [hdb, hdn, htk]
  simp [scatterMask]
